import Mathlib

/-!
Shallow embedding of the greedy overlap-merge assembler from
`Varied-Kmer-Assembly-and-Analysis` (Rust).

Sequences (`&str` / `String`) are modelled as `List Char`; `usize` as `Nat`.
The files `src/fixed_assembler/src/main.rs` and
`src/libs/fixed_assembler/src/main.rs` contain character-identical copies of
`find_overlap` and `assemble_genome`; a single embedding covers both.
Out-of-bounds string slicing, which aborts a Rust program, is modelled by an
explicit error value (`Option` / dedicated constructors), so that
reachability of the abort is expressible.
-/

/-- `overlapAt a b i` holds when the last `i` characters of `a` equal the
first `i` characters of `b` — the comparison
`&seq1[seq1.len() - i..] == &seq2[..i]` of the source. -/
def overlapAt (a b : List Char) (i : Nat) : Prop :=
  a.drop (a.length - i) = b.take i

instance (a b : List Char) (i : Nat) : Decidable (overlapAt a b i) := by
  unfold overlapAt
  infer_instance

/-- The loop `for i in (1..=max_overlap_len).rev()` of `find_overlap`:
scan candidate overlap lengths downward from `m`, returning the first match,
or `0` when none matches. -/
def find_overlapAux (a b : List Char) : Nat → Nat
  | 0 => 0
  | i + 1 => if overlapAt a b (i + 1) then i + 1 else find_overlapAux a b i

/-- `find_overlap` from `src/fixed_assembler/src/main.rs` (lines 7–15):
`max_overlap_len = k.min(seq1.len()).min(seq2.len())`, then the downward scan. -/
def find_overlap (seq1 seq2 : List Char) (k : Nat) : Nat :=
  find_overlapAux seq1 seq2 (min (min k seq1.length) seq2.length)

theorem find_overlapAux_le (a b : List Char) : ∀ m, find_overlapAux a b m ≤ m := by
  intro m
  induction m with
  | zero => exact Nat.le_refl 0
  | succ n ih =>
    unfold find_overlapAux
    split
    · exact Nat.le_refl _
    · exact Nat.le_trans ih (Nat.le_succ n)

theorem find_overlapAux_pos (a b : List Char) :
    ∀ m, 0 < find_overlapAux a b m →
      overlapAt a b (find_overlapAux a b m) ∧
      ∀ i, find_overlapAux a b m < i → i ≤ m → ¬ overlapAt a b i := by
  intro m
  induction m with
  | zero => intro h; exact absurd h (by simp [find_overlapAux])
  | succ n ih =>
    intro h
    by_cases hc : overlapAt a b (n + 1)
    · have heq : find_overlapAux a b (n + 1) = n + 1 := by
        rw [show find_overlapAux a b (n + 1)
          = if overlapAt a b (n + 1) then n + 1 else find_overlapAux a b n from rfl,
          if_pos hc]
      rw [heq]
      exact ⟨hc, fun i h1 h2 => absurd (Nat.lt_of_lt_of_le h1 h2) (Nat.lt_irrefl _)⟩
    · have hstep : find_overlapAux a b (n + 1)
          = if overlapAt a b (n + 1) then n + 1 else find_overlapAux a b n := rfl
      have heq : find_overlapAux a b (n + 1) = find_overlapAux a b n := by
        rw [hstep, if_neg hc]
      rw [heq] at h ⊢
      obtain ⟨h1, h2⟩ := ih h
      refine ⟨h1, fun i hlt hle => ?_⟩
      rcases Nat.eq_or_lt_of_le hle with rfl | hlt'
      · exact hc
      · exact h2 i hlt (Nat.lt_succ_iff.mp hlt')

theorem find_overlapAux_eq_zero (a b : List Char) :
    ∀ m, find_overlapAux a b m = 0 ↔ ∀ i, 0 < i → i ≤ m → ¬ overlapAt a b i := by
  intro m
  induction m with
  | zero =>
    constructor
    · intro _ i h1 h2
      exact absurd (Nat.lt_of_lt_of_le h1 h2) (Nat.lt_irrefl 0)
    · intro _; rfl
  | succ n ih =>
    by_cases hc : overlapAt a b (n + 1)
    · have heq : find_overlapAux a b (n + 1) = n + 1 := by
        rw [show find_overlapAux a b (n + 1)
          = if overlapAt a b (n + 1) then n + 1 else find_overlapAux a b n from rfl,
          if_pos hc]
      rw [heq]
      constructor
      · intro h; exact absurd h (Nat.succ_ne_zero n)
      · intro hall; exact absurd hc (hall (n + 1) (Nat.succ_pos n) (Nat.le_refl _))
    · have hstep : find_overlapAux a b (n + 1)
          = if overlapAt a b (n + 1) then n + 1 else find_overlapAux a b n := rfl
      have heq : find_overlapAux a b (n + 1) = find_overlapAux a b n := by
        rw [hstep, if_neg hc]
      rw [heq, ih]
      constructor
      · intro hall i h1 h2
        rcases Nat.eq_or_lt_of_le h2 with rfl | hlt'
        · exact hc
        · exact hall i h1 (Nat.lt_succ_iff.mp hlt')
      · intro hall i h1 h2
        exact hall i h1 (Nat.le_trans h2 (Nat.le_succ n))

/-- C1: if `find_overlap a b k` is positive then the last `i` characters of
`a` equal the first `i` characters of `b` at `i = find_overlap a b k`, and no
strictly larger candidate up to `min k (min (len a) (len b))` matches; if no
candidate length in `1..min` matches — in particular when `a` or `b` is
empty — the function returns `0`. -/
theorem find_overlap_characterization (a b : List Char) (k : Nat) :
    (0 < find_overlap a b k →
      overlapAt a b (find_overlap a b k) ∧
      ∀ i, find_overlap a b k < i → i ≤ min (min k a.length) b.length →
        ¬ overlapAt a b i) ∧
    ((∀ i, 0 < i → i ≤ min (min k a.length) b.length → ¬ overlapAt a b i) →
      find_overlap a b k = 0) ∧
    ((a = [] ∨ b = []) → find_overlap a b k = 0) := by
  refine ⟨fun h => find_overlapAux_pos a b _ h, ?_, ?_⟩
  · intro hall
    exact (find_overlapAux_eq_zero a b _).mpr hall
  · intro hab
    have hm : min (min k a.length) b.length = 0 := by
      rcases hab with rfl | rfl <;> simp
    unfold find_overlap
    rw [hm]
    rfl

theorem find_overlap_characterization_witness :
    overlapAt ['A', 'B'] ['B', 'C'] (find_overlap ['A', 'B'] ['B', 'C'] 2) :=
  ((find_overlap_characterization ['A', 'B'] ['B', 'C'] 2).1 (by decide)).1

/-- C5: the overlap length returned by `find_overlap` never exceeds
`min k (min (len a) (len b))`, and with bound `k = 0` it is always `0`. -/
theorem find_overlap_le (a b : List Char) (k : Nat) :
    find_overlap a b k ≤ min (min k a.length) b.length ∧ find_overlap a b 0 = 0 := by
  constructor
  · exact find_overlapAux_le a b _
  · have hm : min (min 0 a.length) b.length = 0 := by simp
    unfold find_overlap
    rw [hm]
    rfl

/-- Rust `Vec::swap_remove(i)`: removes and returns the element at index `i`,
moving the last element into its place; `none` models the out-of-bounds abort. -/
def swapRemove {α : Type} (v : List α) (i : Nat) : Option (α × List α) :=
  match v[i]?, v.getLast? with
  | some x, some last => some (x, (v.set i last).dropLast)
  | _, _ => none

/-- The overlap the assembler computes for the ordered index pair `p`:
`find_overlap(&contigs[i], &contigs[j], k)`. -/
def overlapOf (contigs : List (List Char)) (k : Nat) (p : Nat × Nat) : Nat :=
  find_overlap (contigs.getD p.1 []) (contigs.getD p.2 []) k

/-- One comparison of the search phase: replace the best-so-far record
`(max_overlap_len, best_pair)` only on a strictly larger overlap. -/
def selectBest (f : Nat × Nat → Nat) (acc : Nat × Nat × Nat) (p : Nat × Nat) :
    Nat × Nat × Nat :=
  if f p > acc.1 then (f p, p.1, p.2) else acc

/-- The enumeration order of the nested loops
`for i in 0..n { for j in 0..n { if i != j { … } } }`. -/
def allPairs (n : Nat) : List (Nat × Nat) :=
  (List.range n).flatMap
    (fun i => ((List.range n).filter (fun j => decide (i ≠ j))).map (fun j => (i, j)))

/-- The search phase of `assemble_genome` (lines 20–33): fold the comparison
over all ordered pairs, starting from `max_overlap_len = 0`, `best_pair = (0, 0)`. -/
def bestPair (contigs : List (List Char)) (k : Nat) : Nat × Nat × Nat :=
  (allPairs contigs.length).foldl (selectBest (overlapOf contigs k)) (0, 0, 0)

/-- Outcome of one iteration of the assembler's `while` body. `oob` marks the
abort of the slice `&contig2[max_overlap_len..]` (or of `swap_remove`). -/
inductive StepResult where
  | merged (contigs : List (List Char))
  | noOverlap
  | oob
deriving DecidableEq

/-- One iteration of the `while contigs.len() > 1` body of `assemble_genome`
(lines 20–44): search phase, zero-overlap check, then
`swap_remove(i)`, `swap_remove(if i < j { j - 1 } else { j })`, and the merge
`format!("{}{}", contig1, &contig2[max_overlap_len..])` pushed at the end. -/
def assembleStep (contigs : List (List Char)) (k : Nat) : StepResult :=
  if (bestPair contigs k).1 = 0 then .noOverlap
  else
    match swapRemove contigs (bestPair contigs k).2.1 with
    | none => .oob
    | some (contig1, rest1) =>
      match swapRemove rest1
          (if (bestPair contigs k).2.1 < (bestPair contigs k).2.2
           then (bestPair contigs k).2.2 - 1
           else (bestPair contigs k).2.2) with
      | none => .oob
      | some (contig2, rest2) =>
        if (bestPair contigs k).1 ≤ contig2.length then
          .merged (rest2 ++ [contig1 ++ contig2.drop (bestPair contigs k).1])
        else .oob

/-- Result of running the assembler's `while` loop to completion. `fuelOut`
is an artefact of the fuelled encoding and is proved unreachable when the
fuel is at least `contigs.length - 1`. -/
inductive LoopResult where
  | ok (contigs : List (List Char))
  | oob
  | fuelOut
deriving DecidableEq

/-- The `while contigs.len() > 1` loop of `assemble_genome`, fuelled. -/
def assembleLoop (k : Nat) : Nat → List (List Char) → LoopResult
  | 0, contigs => if contigs.length > 1 then .fuelOut else .ok contigs
  | fuel + 1, contigs =>
    if contigs.length > 1 then
      match assembleStep contigs k with
      | .merged next => assembleLoop k fuel next
      | .noOverlap => .ok contigs
      | .oob => .oob
    else .ok contigs

/-- `assemble_genome` from `src/fixed_assembler/src/main.rs` (lines 18–48):
run the loop, then `contigs.pop().unwrap_or_default()`. `none` models an
aborted run. -/
def assemble_genome (contigs : List (List Char)) (k : Nat) : Option (List Char) :=
  match assembleLoop k contigs.length contigs with
  | .ok final => some (final.getLast?.getD [])
  | _ => none

/-- C4 counterexample: on the spec's concrete example the overlap is `2`,
not `4`, and the assembled result is not `"ATGCGTACGTAG"`. -/
theorem find_overlap_example_refuted :
    ¬ (find_overlap
        ['A', 'T', 'G', 'C', 'G', 'T', 'A', 'C', 'G']
        ['C', 'G', 'T', 'A', 'C', 'G', 'T', 'A', 'G'] 4 = 4 ∧
      assemble_genome
        [['A', 'T', 'G', 'C', 'G', 'T', 'A', 'C', 'G'],
         ['C', 'G', 'T', 'A', 'C', 'G', 'T', 'A', 'G']] 4 =
        some ['A', 'T', 'G', 'C', 'G', 'T', 'A', 'C', 'G', 'T', 'A', 'G']) := by
  decide

/-- C4 amended: `find_overlap("ATGCGTACG", "CGTACGTAG", 4)` returns `2`
(suffix `"CG"` = prefix `"CG"`; the length-4 and length-3 candidates do not
match), so the merge keeps all but the first `2` characters of the second
fragment and assembling the two fragments yields `"ATGCGTACGTACGTAG"`. -/
theorem find_overlap_example :
    find_overlap
      ['A', 'T', 'G', 'C', 'G', 'T', 'A', 'C', 'G']
      ['C', 'G', 'T', 'A', 'C', 'G', 'T', 'A', 'G'] 4 = 2 ∧
    assemble_genome
      [['A', 'T', 'G', 'C', 'G', 'T', 'A', 'C', 'G'],
       ['C', 'G', 'T', 'A', 'C', 'G', 'T', 'A', 'G']] 4 =
      some ['A', 'T', 'G', 'C', 'G', 'T', 'A', 'C', 'G', 'T', 'A', 'C', 'G', 'T', 'A', 'G'] := by
  constructor
  · decide
  · decide

/-- C6: assembling the empty collection returns the empty sequence, and
assembling a one-element collection returns its element unchanged, for every
overlap bound `k`. -/
theorem assemble_genome_small (k : Nat) (x : List Char) :
    assemble_genome [] k = some [] ∧ assemble_genome [x] k = some x := by
  constructor
  · rfl
  · rfl

theorem swapRemove_length {α : Type} (v : List α) (i : Nat) (x : α) (w : List α)
    (h : swapRemove v i = some (x, w)) : w.length + 1 = v.length := by
  unfold swapRemove at h
  cases h1 : v[i]? with
  | none => rw [h1] at h; simp at h
  | some y =>
    cases h2 : v.getLast? with
    | none => rw [h1, h2] at h; simp at h
    | some last =>
      rw [h1, h2] at h
      simp only [Option.some.injEq, Prod.mk.injEq] at h
      obtain ⟨-, hw⟩ := h
      have hi : i < v.length := (List.getElem?_eq_some_iff.1 h1).1
      rw [← hw]
      simp only [List.length_dropLast, List.length_set]
      omega

theorem assembleStep_merged_shape (contigs : List (List Char)) (k : Nat)
    (next : List (List Char)) (h : assembleStep contigs k = .merged next) :
    ∃ contig1 rest1 contig2 rest2,
      swapRemove contigs (bestPair contigs k).2.1 = some (contig1, rest1) ∧
      swapRemove rest1
        (if (bestPair contigs k).2.1 < (bestPair contigs k).2.2
         then (bestPair contigs k).2.2 - 1
         else (bestPair contigs k).2.2) = some (contig2, rest2) ∧
      next = rest2 ++ [contig1 ++ contig2.drop (bestPair contigs k).1] := by
  unfold assembleStep at h
  split at h
  · exact absurd h (by simp)
  · split at h
    · exact absurd h (by simp)
    · split at h
      · exact absurd h (by simp)
      · split at h
        · rename_i x1 contig1 rest1 hr1 x2 contig2 rest2 hr2 hle
          refine ⟨contig1, rest1, contig2, rest2, hr1, hr2, ?_⟩
          injection h with h3
          exact h3.symm
        · exact absurd h (by simp)

theorem assembleStep_merged_length (contigs : List (List Char)) (k : Nat)
    (next : List (List Char)) (h : assembleStep contigs k = .merged next) :
    next.length + 1 = contigs.length := by
  obtain ⟨c1, r1, c2, r2, hr1, hr2, hnext⟩ := assembleStep_merged_shape contigs k next h
  have l1 := swapRemove_length contigs _ _ _ hr1
  have l2 := swapRemove_length r1 _ _ _ hr2
  rw [hnext]
  simp only [List.length_append, List.length_cons, List.length_nil]
  omega

theorem assembleLoop_no_fuelOut (k : Nat) :
    ∀ fuel contigs, contigs.length ≤ fuel + 1 →
      assembleLoop k fuel contigs ≠ LoopResult.fuelOut := by
  intro fuel
  induction fuel with
  | zero =>
    intro contigs hlen
    unfold assembleLoop
    rw [if_neg (by omega)]
    simp
  | succ n ih =>
    intro contigs hlen
    unfold assembleLoop
    by_cases hgt : contigs.length > 1
    · rw [if_pos hgt]
      cases hstep : assembleStep contigs k with
      | merged next =>
        have hlt := assembleStep_merged_length contigs k next hstep
        simpa using ih next (by omega)
      | noOverlap => simp
      | oob => simp
    · rw [if_neg hgt]
      simp

/-- C8: every merge iteration shrinks the collection by exactly one element,
so a fuel budget of `n - 1` iterations suffices for an initial collection of
`n` fragments: the fuelled loop never runs out of fuel, i.e. the Rust loop
terminates after at most `n - 1` iterations. -/
theorem assemble_genome_terminates (contigs : List (List Char)) (k fuel : Nat) :
    (∀ next, assembleStep contigs k = StepResult.merged next →
      next.length + 1 = contigs.length) ∧
    (contigs.length ≤ fuel + 1 → assembleLoop k fuel contigs ≠ LoopResult.fuelOut) :=
  ⟨fun next h => assembleStep_merged_length contigs k next h,
   fun hlen => assembleLoop_no_fuelOut k fuel contigs hlen⟩

theorem assemble_genome_terminates_witness :
    assembleLoop 1 1 [['A', 'B'], ['B', 'C']] ≠ LoopResult.fuelOut :=
  (assemble_genome_terminates [['A', 'B'], ['B', 'C']] 1 1).2 (by decide)

/-- C9: a successful merge step replaces the two removed fragments by one
merged fragment — the collection shrinks by exactly one element — and the
resulting collection still contains at least one element (the pushed merged
fragment), so assembly in progress never empties the collection. -/
theorem assembleStep_shrinks (contigs : List (List Char)) (k : Nat)
    (next : List (List Char)) (h : assembleStep contigs k = StepResult.merged next) :
    next.length + 1 = contigs.length ∧ next ≠ [] := by
  obtain ⟨c1, r1, c2, r2, hr1, hr2, hnext⟩ := assembleStep_merged_shape contigs k next h
  have l1 := swapRemove_length contigs _ _ _ hr1
  have l2 := swapRemove_length r1 _ _ _ hr2
  constructor
  · rw [hnext]
    simp only [List.length_append, List.length_cons, List.length_nil]
    omega
  · rw [hnext]
    simp

theorem assembleStep_shrinks_witness :
    ([['A', 'B', 'C']] : List (List Char)).length + 1 =
      ([['A', 'B'], ['B', 'C']] : List (List Char)).length ∧
    ([['A', 'B', 'C']] : List (List Char)) ≠ [] :=
  assembleStep_shrinks [['A', 'B'], ['B', 'C']] 1 [['A', 'B', 'C']] (by decide)

/-- C2 (code bug): on `["AB", "BC", "XX"]` with `k = 1` the winning pair is
`(0, 1)`, yet the merge phase removes `"AB"` and `"XX"`: `swap_remove(0)`
moves the last element `"XX"` into index `0`, and the second removal at
index `j - 1 = 0` then takes `"XX"`, not fragment `j`. The winning pair's
fragment `"BC"` stays in the collection and the run assembles `"ABX"`. -/
theorem assembleStep_removes_wrong_fragment :
    bestPair [['A', 'B'], ['B', 'C'], ['X', 'X']] 1 = (1, 0, 1) ∧
    assembleStep [['A', 'B'], ['B', 'C'], ['X', 'X']] 1 =
      StepResult.merged [['B', 'C'], ['A', 'B', 'X']] ∧
    assemble_genome [['A', 'B'], ['B', 'C'], ['X', 'X']] 1 = some ['A', 'B', 'X'] := by
  refine ⟨?_, ?_, ?_⟩ <;> decide

/-- C3 (code bug): with fragments `["XYABC", "ABCQR", "Z"]` and `k = 3` the
winning pair is `(0, 1)` with overlap `3`, but after the two `swap_remove`
calls the second removed fragment is `"Z"`, and the slice
`&contig2[max_overlap_len..]` = `"Z"[3..]` is out of bounds: the assembler
aborts instead of returning a value, so `assemble_genome` is not total. -/
theorem assemble_genome_aborts :
    bestPair [['X', 'Y', 'A', 'B', 'C'], ['A', 'B', 'C', 'Q', 'R'], ['Z']] 3 = (3, 0, 1) ∧
    assembleStep [['X', 'Y', 'A', 'B', 'C'], ['A', 'B', 'C', 'Q', 'R'], ['Z']] 3 =
      StepResult.oob ∧
    assemble_genome [['X', 'Y', 'A', 'B', 'C'], ['A', 'B', 'C', 'Q', 'R'], ['Z']] 3 =
      none := by
  refine ⟨?_, ?_, ?_⟩ <;> decide

/-- The enumeration order of the search phase's nested loops: `p` comes
strictly before `q` when its outer index is smaller, or the outer indices
agree and its inner index is smaller. -/
def pairLt (p q : Nat × Nat) : Prop :=
  p.1 < q.1 ∨ (p.1 = q.1 ∧ p.2 < q.2)

theorem foldl_selectBest_fst_le (f : Nat × Nat → Nat) :
    ∀ (ps : List (Nat × Nat)) (acc : Nat × Nat × Nat),
      acc.1 ≤ (ps.foldl (selectBest f) acc).1 := by
  intro ps
  induction ps with
  | nil => intro acc; exact Nat.le_refl _
  | cons p ps ih =>
    intro acc
    rw [List.foldl_cons]
    refine Nat.le_trans ?_ (ih (selectBest f acc p))
    unfold selectBest
    split
    · rename_i hgt
      exact Nat.le_of_lt hgt
    · exact Nat.le_refl _

theorem foldl_selectBest_ub (f : Nat × Nat → Nat) :
    ∀ (ps : List (Nat × Nat)) (acc : Nat × Nat × Nat) (p : Nat × Nat), p ∈ ps →
      f p ≤ (ps.foldl (selectBest f) acc).1 := by
  intro ps
  induction ps with
  | nil => intro acc p hp; exact absurd hp (List.not_mem_nil p)
  | cons q ps ih =>
    intro acc p hp
    rw [List.foldl_cons]
    rcases List.mem_cons.1 hp with rfl | hp'
    · refine Nat.le_trans ?_ (foldl_selectBest_fst_le f ps (selectBest f acc p))
      unfold selectBest
      split
      · exact Nat.le_refl _
      · rename_i hng
        exact Nat.le_of_not_lt hng
    · exact ih (selectBest f acc q) p hp'

theorem foldl_selectBest_mem (f : Nat × Nat → Nat) :
    ∀ (ps : List (Nat × Nat)) (acc : Nat × Nat × Nat),
      ps.foldl (selectBest f) acc = acc ∨
      (((ps.foldl (selectBest f) acc).2.1, (ps.foldl (selectBest f) acc).2.2) ∈ ps ∧
        f ((ps.foldl (selectBest f) acc).2.1, (ps.foldl (selectBest f) acc).2.2) =
          (ps.foldl (selectBest f) acc).1) := by
  intro ps
  induction ps with
  | nil => intro acc; exact Or.inl rfl
  | cons p ps ih =>
    intro acc
    rw [List.foldl_cons]
    by_cases hgt : f p > acc.1
    · have hsel : selectBest f acc p = (f p, p.1, p.2) := by
        unfold selectBest; rw [if_pos hgt]
      rw [hsel]
      rcases ih (f p, p.1, p.2) with heq | ⟨hmem, hval⟩
      · rw [heq]
        exact Or.inr ⟨List.mem_cons_self p ps, rfl⟩
      · exact Or.inr ⟨List.mem_cons_of_mem p hmem, hval⟩
    · have hsel : selectBest f acc p = acc := by
        unfold selectBest; rw [if_neg hgt]
      rw [hsel]
      rcases ih acc with heq | ⟨hmem, hval⟩
      · exact Or.inl heq
      · exact Or.inr ⟨List.mem_cons_of_mem p hmem, hval⟩

theorem foldl_selectBest_increase (f : Nat × Nat → Nat) :
    ∀ (ps : List (Nat × Nat)) (acc : Nat × Nat × Nat),
      ps.foldl (selectBest f) acc ≠ acc → acc.1 < (ps.foldl (selectBest f) acc).1 := by
  intro ps
  induction ps with
  | nil => intro acc h; exact absurd rfl h
  | cons p ps ih =>
    intro acc h
    rw [List.foldl_cons] at h ⊢
    by_cases hgt : f p > acc.1
    · have hsel : selectBest f acc p = (f p, p.1, p.2) := by
        unfold selectBest; rw [if_pos hgt]
      rw [hsel] at h ⊢
      by_cases heq : ps.foldl (selectBest f) (f p, p.1, p.2) = (f p, p.1, p.2)
      · rw [heq]; exact hgt
      · exact Nat.lt_trans hgt (ih (f p, p.1, p.2) heq)
    · have hsel : selectBest f acc p = acc := by
        unfold selectBest; rw [if_neg hgt]
      rw [hsel] at h ⊢
      exact ih acc h

theorem foldl_selectBest_earlier (f : Nat × Nat → Nat) :
    ∀ (ps : List (Nat × Nat)) (acc : Nat × Nat × Nat), ps.Pairwise pairLt →
      ps.foldl (selectBest f) acc ≠ acc →
      ∀ q ∈ ps,
        pairLt q ((ps.foldl (selectBest f) acc).2.1, (ps.foldl (selectBest f) acc).2.2) →
        f q < (ps.foldl (selectBest f) acc).1 := by
  intro ps
  induction ps with
  | nil => intro acc _ _ q hq; exact absurd hq (List.not_mem_nil q)
  | cons p ps ih =>
    intro acc hpw h q hq hlt
    rw [List.foldl_cons] at h hlt ⊢
    obtain ⟨hp, hps⟩ := List.pairwise_cons.1 hpw
    by_cases hgt : f p > acc.1
    · have hsel : selectBest f acc p = (f p, p.1, p.2) := by
        unfold selectBest; rw [if_pos hgt]
      rw [hsel] at h hlt ⊢
      by_cases heq : ps.foldl (selectBest f) (f p, p.1, p.2) = (f p, p.1, p.2)
      · rw [heq] at hlt ⊢
        rcases List.mem_cons.1 hq with rfl | hq'
        · have hlt' : pairLt q q := hlt
          exfalso
          unfold pairLt at hlt'
          omega
        · have hlt' : pairLt q p := hlt
          have hpq := hp q hq'
          exfalso
          unfold pairLt at hlt' hpq
          omega
      · rcases List.mem_cons.1 hq with rfl | hq'
        · exact foldl_selectBest_increase f ps (f q, q.1, q.2) heq
        · exact ih (f p, p.1, p.2) hps heq q hq' hlt
    · have hsel : selectBest f acc p = acc := by
        unfold selectBest; rw [if_neg hgt]
      rw [hsel] at h hlt ⊢
      rcases List.mem_cons.1 hq with rfl | hq'
      · exact Nat.lt_of_le_of_lt (Nat.le_of_not_lt hgt) (foldl_selectBest_increase f ps acc h)
      · exact ih acc hps h q hq' hlt

theorem allPairs_pairwise (n : Nat) : (allPairs n).Pairwise pairLt := by
  unfold allPairs
  refine List.pairwise_flatMap.2 ⟨?_, ?_⟩
  · intro i hi
    refine List.pairwise_map.2 ?_
    refine List.Pairwise.filter _ ?_
    refine (List.pairwise_lt_range n).imp ?_
    intro a b hab
    exact Or.inr ⟨rfl, hab⟩
  · refine (List.pairwise_lt_range n).imp ?_
    intro i1 i2 h12 x hx y hy
    obtain ⟨j1, hj1, rfl⟩ := List.mem_map.1 hx
    obtain ⟨j2, hj2, rfl⟩ := List.mem_map.1 hy
    exact Or.inl h12

theorem mem_allPairs (n : Nat) (p : Nat × Nat) :
    p ∈ allPairs n ↔ p.1 < n ∧ p.2 < n ∧ p.1 ≠ p.2 := by
  unfold allPairs
  constructor
  · intro hp
    obtain ⟨i, hi, hp2⟩ := List.mem_flatMap.1 hp
    obtain ⟨j, hj, rfl⟩ := List.mem_map.1 hp2
    obtain ⟨hj1, hj2⟩ := List.mem_filter.1 hj
    exact ⟨List.mem_range.1 hi, List.mem_range.1 hj1, of_decide_eq_true hj2⟩
  · rintro ⟨h1, h2, h3⟩
    refine List.mem_flatMap.2 ⟨p.1, List.mem_range.2 h1, ?_⟩
    refine List.mem_map.2 ⟨p.2, ?_, rfl⟩
    exact List.mem_filter.2 ⟨List.mem_range.2 h2, decide_eq_true h3⟩

/-- C7: when the search phase records a positive best overlap, the recorded
pair is a valid ordered pair (distinct in-range indices) whose overlap under
bound `k` equals the recorded maximum, every ordered pair's overlap is at
most that maximum, and every pair occurring strictly earlier in the
enumeration order (outer index ascending, then inner index ascending) has a
strictly smaller overlap — so the maximum is attained first at the selected
pair and a later pair of merely equal overlap never replaces it. -/
theorem bestPair_found (contigs : List (List Char)) (k : Nat)
    (h : 0 < (bestPair contigs k).1) :
    (bestPair contigs k).2.1 ≠ (bestPair contigs k).2.2 ∧
    (bestPair contigs k).2.1 < contigs.length ∧
    (bestPair contigs k).2.2 < contigs.length ∧
    overlapOf contigs k ((bestPair contigs k).2.1, (bestPair contigs k).2.2) =
      (bestPair contigs k).1 ∧
    (∀ p : Nat × Nat, p.1 < contigs.length → p.2 < contigs.length → p.1 ≠ p.2 →
      overlapOf contigs k p ≤ (bestPair contigs k).1) ∧
    (∀ p : Nat × Nat, p.1 < contigs.length → p.2 < contigs.length → p.1 ≠ p.2 →
      pairLt p ((bestPair contigs k).2.1, (bestPair contigs k).2.2) →
      overlapOf contigs k p < (bestPair contigs k).1) := by
  have hne : (allPairs contigs.length).foldl (selectBest (overlapOf contigs k)) (0, 0, 0) ≠
      ((0, 0, 0) : Nat × Nat × Nat) := by
    intro heq
    have h' : 0 < ((allPairs contigs.length).foldl
        (selectBest (overlapOf contigs k)) (0, 0, 0)).1 := h
    rw [heq] at h'
    exact absurd h' (Nat.lt_irrefl 0)
  rcases foldl_selectBest_mem (overlapOf contigs k) (allPairs contigs.length) (0, 0, 0) with
    heq | ⟨hmem, hval⟩
  · exact absurd heq hne
  · have hm := (mem_allPairs contigs.length _).1 hmem
    refine ⟨hm.2.2, hm.1, hm.2.1, hval, ?_, ?_⟩
    · intro p h1 h2 h3
      exact foldl_selectBest_ub (overlapOf contigs k) (allPairs contigs.length) (0, 0, 0) p
        ((mem_allPairs contigs.length p).2 ⟨h1, h2, h3⟩)
    · intro p h1 h2 h3 hplt
      exact foldl_selectBest_earlier (overlapOf contigs k) (allPairs contigs.length) (0, 0, 0)
        (allPairs_pairwise contigs.length) hne p
        ((mem_allPairs contigs.length p).2 ⟨h1, h2, h3⟩) hplt

theorem bestPair_found_witness :
    (bestPair [['A', 'B'], ['B', 'C']] 1).2.1 ≠ (bestPair [['A', 'B'], ['B', 'C']] 1).2.2 :=
  (bestPair_found [['A', 'B'], ['B', 'C']] 1 (by decide)).1

namespace read_creator

/-- The `while i + read_length <= genome.len()` loop of `break_into_reads` in
`src/read_creator/src/main.rs`, which advances by `read_length - 1`; fuelled,
with `none` marking a run that exceeds the fuel (for `read_length = 1` on a
nonempty genome the Rust loop never advances, so such runs never return). -/
def breakReadsGo (genome : List Char) (read_length : Nat) :
    Nat → Nat → Option (List (List Char))
  | 0, i => if i + read_length ≤ genome.length then none else some []
  | fuel + 1, i =>
    if i + read_length ≤ genome.length then
      (breakReadsGo genome read_length fuel (i + (read_length - 1))).map
        (fun rest => (genome.drop i).take read_length :: rest)
    else some []

/-- `break_into_reads` from `src/read_creator/src/main.rs` (lines 4–15). -/
def break_into_reads (genome : List Char) (read_length : Nat) :
    Option (List (List Char)) :=
  breakReadsGo genome read_length (genome.length + 1) 0

theorem breakReadsGoStride_length (genome : List Char) (read_length : Nat) :
    ∀ fuel i reads, breakReadsGo genome read_length fuel i = some reads →
      ∀ r ∈ reads, r.length = read_length := by
  intro fuel
  induction fuel with
  | zero =>
    intro i reads h r hr
    unfold breakReadsGo at h
    split at h
    · exact absurd h (by simp)
    · injection h with h2
      rw [← h2] at hr
      exact absurd hr (List.not_mem_nil r)
  | succ n ih =>
    intro i reads h r hr
    unfold breakReadsGo at h
    split at h
    · rename_i hcond
      cases hrec : breakReadsGo genome read_length n (i + (read_length - 1)) with
      | none => rw [hrec] at h; exact absurd h (by simp)
      | some rest =>
        rw [hrec, Option.map_some'] at h
        injection h with h2
        rw [← h2] at hr
        rcases List.mem_cons.1 hr with rfl | hr'
        · simp only [List.length_take, List.length_drop]
          omega
        · exact ih (i + (read_length - 1)) rest hrec r hr'
    · injection h with h2
      rw [← h2] at hr
      exact absurd hr (List.not_mem_nil r)

end read_creator

namespace libs.read_creator

/-- The `while i + read_length <= genome.len()` loop of `break_into_reads` in
`src/libs/read_creator/src/main.rs`, which advances by `1`; fuelled with
`genome.length + 1` steps, which covers every iteration the Rust loop makes
(its index never exceeds `genome.length`, and the cut-off point coincides
with the loop's own exit). -/
def breakReadsGo (genome : List Char) (read_length : Nat) :
    Nat → Nat → List (List Char)
  | 0, _ => []
  | fuel + 1, i =>
    if i + read_length ≤ genome.length then
      (genome.drop i).take read_length :: breakReadsGo genome read_length fuel (i + 1)
    else []

/-- `break_into_reads` from `src/libs/read_creator/src/main.rs` (lines 5–16). -/
def break_into_reads (genome : List Char) (read_length : Nat) : List (List Char) :=
  breakReadsGo genome read_length (genome.length + 1) 0

theorem breakReadsGoUnit_length (genome : List Char) (read_length : Nat) :
    ∀ fuel i r, r ∈ breakReadsGo genome read_length fuel i → r.length = read_length := by
  intro fuel
  induction fuel with
  | zero => intro i r hr; exact absurd hr (List.not_mem_nil r)
  | succ n ih =>
    intro i r hr
    unfold breakReadsGo at hr
    split at hr
    · rename_i hcond
      rcases List.mem_cons.1 hr with rfl | hr'
      · simp only [List.length_take, List.length_drop]
        omega
      · exact ih (i + 1) r hr'
    · exact absurd hr (List.not_mem_nil r)

end libs.read_creator

namespace libs.fixed_assembler

/-- `break_into_reads` from `src/libs/fixed_assembler/src/main.rs`
(lines 59–69): `for i in 0..=genome.len() - read_length` pushes the window
`&genome[i..i + read_length]`; when `read_length > genome.len()` the
unsigned subtraction underflows and the program aborts, modelled as `none`. -/
def break_into_reads (genome : List Char) (read_length : Nat) :
    Option (List (List Char)) :=
  if read_length ≤ genome.length then
    some ((List.range (genome.length - read_length + 1)).map
      (fun i => (genome.drop i).take read_length))
  else none

end libs.fixed_assembler

/-- C10: every fragment produced by any of the three `break_into_reads`
variants has length exactly `read_length`, hence is nonempty when
`read_length ≥ 1`: each read is a fixed-width window of the genome. -/
theorem break_into_reads_reads_length (genome : List Char) (read_length : Nat)
    (h : 1 ≤ read_length) :
    (∀ reads, read_creator.break_into_reads genome read_length = some reads →
      ∀ r ∈ reads, r.length = read_length ∧ r ≠ []) ∧
    (∀ r ∈ libs.read_creator.break_into_reads genome read_length,
      r.length = read_length ∧ r ≠ []) ∧
    (∀ reads, libs.fixed_assembler.break_into_reads genome read_length = some reads →
      ∀ r ∈ reads, r.length = read_length ∧ r ≠ []) := by
  have hne : ∀ r : List Char, r.length = read_length → r ≠ [] := by
    intro r hlen hnil
    rw [hnil] at hlen
    simp only [List.length_nil] at hlen
    omega
  refine ⟨?_, ?_, ?_⟩
  · intro reads hsome r hr
    have hl := read_creator.breakReadsGoStride_length genome read_length
      (genome.length + 1) 0 reads hsome r hr
    exact ⟨hl, hne r hl⟩
  · intro r hr
    have hl := libs.read_creator.breakReadsGoUnit_length genome read_length
      (genome.length + 1) 0 r hr
    exact ⟨hl, hne r hl⟩
  · intro reads hsome r hr
    unfold libs.fixed_assembler.break_into_reads at hsome
    split at hsome
    · rename_i hle
      injection hsome with h2
      rw [← h2] at hr
      obtain ⟨i, hi, rfl⟩ := List.mem_map.1 hr
      have hi' := List.mem_range.1 hi
      have hl : ((genome.drop i).take read_length).length = read_length := by
        simp only [List.length_take, List.length_drop]
        omega
      exact ⟨hl, hne _ hl⟩
    · exact absurd hsome (by simp)

theorem break_into_reads_reads_length_witness :
    (['A', 'B'] : List Char).length = 2 ∧ (['A', 'B'] : List Char) ≠ [] :=
  (break_into_reads_reads_length ['A', 'B', 'C'] 2 (by decide)).2.1 ['A', 'B'] (by decide)
